import Mathlib

/-!
Shallow embedding of the taxi rolling-features pipeline
(`trip-level-rolling-features.py` / `compute_rolling_demand_features.py`):
event normalization (dropna + typing), the (zone, timestamp) stable sort,
zone partition boundaries via first-occurrence indices, per-partition
rolling window counts via `searchsorted` binary search, and the daily
(date, zone) aggregation.  Timestamps are int64 nanoseconds since epoch,
modelled as `Int`; zone ids are modelled as `Int`.
-/

namespace Taxis

/-- A raw input row: `pickup_datetime` and `PULocationID` may be missing
(pandas `NaN` / `NaT`), modelled as `Option`. -/
structure RawRecord where
  pickup_datetime : Option Int
  pulocation : Option Int
  deriving Repr, DecidableEq

/-- A normalized event: valid timestamp (int64 ns) and zone id, as produced
by `dropna` + `astype` in the source. -/
structure Event where
  ts : Int
  zone : Int
  deriving Repr, DecidableEq

/-- A raw row is kept iff both required fields are present
(`dropna(subset=["pickup_datetime", "PULocationID"])`). -/
def wellFormed (r : RawRecord) : Bool :=
  r.pickup_datetime.isSome && r.pulocation.isSome

/-- The Event Normalizer: drop rows with a missing field, type the rest
(source lines `_trips = _trips.dropna(subset=...)`,
`_trips["PULocationID"].astype("int32")`). -/
def normalize (rows : List RawRecord) : List Event :=
  rows.filterMap fun r =>
    match r.pickup_datetime, r.pulocation with
    | some t, some z => some ⟨t, z⟩
    | _, _ => none

/-- Extraction of the typed event from a well-formed raw row. -/
def extract (r : RawRecord) : Event :=
  ⟨r.pickup_datetime.getD 0, r.pulocation.getD 0⟩

/-- One hour in nanoseconds (`_ns_1h` in the source). -/
def ns_1h : Int := 3600000000000

/-- Six hours in nanoseconds (`_ns_6h`). -/
def ns_6h : Int := 21600000000000

/-- Twenty-four hours in nanoseconds (`_ns_24h`). -/
def ns_24h : Int := 86400000000000

/-- The bisection loop of numpy `searchsorted(a, v, side="left")`:
while `lo < hi`, probe `mid = (lo + hi) / 2`; move `lo` past `mid` when
`a[mid] < v`, else lower `hi` to `mid`. -/
def searchLoop (a : List Int) (v : Int) (lo hi : Nat) : Nat :=
  if _h : lo < hi then
    let mid := (lo + hi) / 2
    if a.getD mid 0 < v then searchLoop a v (mid + 1) hi
    else searchLoop a v lo mid
  else lo
termination_by hi - lo
decreasing_by all_goals omega

/-- numpy `np.searchsorted(a, v, side="left")` over the whole list. -/
def searchsortedLeft (a : List Int) (v : Int) : Nat :=
  searchLoop a v 0 a.length

/-- Length of the maximal prefix of elements `< v`; on a sorted list this is
the smallest index `j` with `v ≤ a[j]` (and the list length when no such
index exists), i.e. the `lower_bound` the rolling counter relies on. -/
def lowerBound (a : List Int) (v : Int) : Nat :=
  match a with
  | [] => 0
  | t :: rest => if t < v then lowerBound rest v + 1 else 0

/-- The Rolling Window Counter on one entity partition:
`_local_idx - np.searchsorted(_t, _t - window, side="left")`, elementwise,
as int values. -/
def rollingCounts (t : List Int) (w : Int) : List Int :=
  (List.range t.length).map fun (i : Nat) =>
    (i : Int) - (searchsortedLeft t (t.getD i 0 - w) : Int)

/-- Comparison definition taken from the specification text (not from the
source): the number of partition events whose timestamp lies in the
half-open interval `(t[i] - w, t[i]]`, the event itself included. -/
def windowIntervalCount (t : List Int) (i : Nat) (w : Int) : Nat :=
  t.countP fun s => decide (t.getD i 0 - w < s) && decide (s ≤ t.getD i 0)

/-- Sort key of `sort_values(["PULocationID", "pickup_datetime"])`:
zone ascending, then timestamp ascending. -/
def eventLE (a b : Event) : Bool :=
  decide (a.zone < b.zone) || (decide (a.zone = b.zone) && decide (a.ts ≤ b.ts))

/-- The Entity Partitioner sort.  A pandas multi-column `sort_values` is
`np.lexsort`, a stable sort by the key; it is modelled as a stable merge
sort by `eventLE`. -/
def sortEvents (l : List Event) : List Event := l.mergeSort eventLE

/-- The same sort applied to events tagged with their input position, used
to state stability; the key order (`List.enumLE eventLE`) compares by the
event key and falls back to the input position only on key ties. -/
def sortWithIndex (l : List Event) : List (Nat × Event) :=
  (l.enum).mergeSort (List.enumLE eventLE)

/-- Partition boundaries: `np.unique(_zone, return_index=True)` on the
zone-sorted array yields the first index of each zone run, i.e. index 0 and
every index whose zone differs from its predecessor. -/
def zoneStarts (zs : List Int) : List Nat :=
  (List.range zs.length).filter fun i =>
    decide (i = 0) || decide (zs.getD (i - 1) 0 ≠ zs.getD i 0)

/-- `_zone_ends = np.append(_zone_starts[1:], len(_zone))`. -/
def zoneEnds (zs : List Int) : List Nat :=
  (zoneStarts zs).tail ++ [zs.length]

/-- The `(start, end)` partition ranges the counting loop iterates over. -/
def zoneRanges (zs : List Int) : List (Nat × Nat) :=
  (zoneStarts zs).zip (zoneEnds zs)

/-- Strict (zone, timestamp, input position) order on tagged events:
sortedness by the two key columns plus stability on full-key ties. -/
def stableLT (p q : Nat × Event) : Prop :=
  p.2.zone < q.2.zone ∨ (p.2.zone = q.2.zone ∧
    (p.2.ts < q.2.ts ∨ (p.2.ts = q.2.ts ∧ p.1 < q.1)))

/-- An event together with its three rolling window counts. -/
structure Trip where
  ts : Int
  zone : Int
  rolling_1h : Int
  rolling_6h : Int
  rolling_24h : Int
  deriving Repr, DecidableEq

/-- Maximal runs of equal zone; on the zone-sorted event list these are
exactly the `[start, end)` slices the source counting loop visits. -/
def chunkByZone : List Event → List (List Event)
  | [] => []
  | e :: rest =>
    match chunkByZone rest with
    | [] => [[e]]
    | [] :: gs => [e] :: gs
    | (f :: g) :: gs =>
      if e.zone = f.zone then (e :: f :: g) :: gs else [e] :: (f :: g) :: gs

/-- Attach the three rolling counts within one partition
(`_r1h[_s:_e] = _local_idx - np.searchsorted(...)` etc.). -/
def attachCounts (part : List Event) : List Trip :=
  let t := part.map Event.ts
  (List.range part.length).map fun (i : Nat) =>
    { ts := t.getD i 0
      zone := (part.map Event.zone).getD i 0
      rolling_1h := (rollingCounts t ns_1h).getD i 0
      rolling_6h := (rollingCounts t ns_6h).getD i 0
      rolling_24h := (rollingCounts t ns_24h).getD i 0 }

/-- The Rolling Window Counter over the whole sorted array, one zone
partition at a time. -/
def tripsWithCounts (l : List Event) : List Trip :=
  (chunkByZone l).flatMap attachCounts

/-- Nanoseconds per calendar day, for `dt.normalize()`. -/
def nsPerDay : Int := 86400000000000

/-- `pickup_datetime.dt.normalize()`: truncate a timestamp to the start of
its calendar day (floor to a multiple of one day). -/
def dateOf (t : Int) : Int := nsPerDay * (t.fdiv nsPerDay)

/-- The groupby key `(date, PULocationID)`. -/
def dailyKey (tr : Trip) : Int × Int := (dateOf tr.ts, tr.zone)

/-- Ascending order on groupby keys (date, then zone), as produced by
`groupby(..., sort=True)`. -/
def keyLE (a b : Int × Int) : Bool :=
  decide (a.1 < b.1) || (decide (a.1 = b.1) && decide (a.2 ≤ b.2))

/-- One output row of `daily_zone_features`. -/
structure DailyRow where
  date : Int
  zone : Int
  daily_trips : Nat
  rolling_1h_mean : Rat
  rolling_6h_mean : Rat
  rolling_24h_mean : Rat
  deriving Repr, DecidableEq

/-- `round(x, 2)`, modelled on exact rationals. -/
def round2 (q : Rat) : Rat := (round (q * 100) : Int) / 100

/-- Arithmetic mean of an integer column over a group. -/
def meanOf (xs : List Int) : Rat :=
  ((xs.map fun x => (x : Rat)).sum) / (xs.length : Rat)

/-- The distinct groupby keys in ascending order, as produced by
`groupby(["date", "PULocationID"], sort=True)`. -/
def dailyKeys (trips : List Trip) : List (Int × Int) :=
  ((trips.map dailyKey).dedup).mergeSort keyLE

/-- The group of trips holding a given key. -/
def keyGroup (trips : List Trip) (k : Int × Int) : List Trip :=
  trips.filter fun tr => decide (dailyKey tr = k)

/-- One reduced group: its size (`daily_trips`) and the rounded means of the
three rolling columns. -/
def mkDailyRow (trips : List Trip) (k : Int × Int) : DailyRow :=
  { date := k.1
    zone := k.2
    daily_trips := (keyGroup trips k).length
    rolling_1h_mean := round2 (meanOf ((keyGroup trips k).map Trip.rolling_1h))
    rolling_6h_mean := round2 (meanOf ((keyGroup trips k).map Trip.rolling_6h))
    rolling_24h_mean := round2 (meanOf ((keyGroup trips k).map Trip.rolling_24h)) }

/-- The Daily Aggregator: group trips by `(date, zone)` with the keys in
ascending order, reduce each group to its size and the rounded means of the
three rolling columns. -/
def dailyAgg (trips : List Trip) : List DailyRow :=
  (dailyKeys trips).map (mkDailyRow trips)

/-- Strict ascending (date, zone) order on output rows. -/
def rowLT (r1 r2 : DailyRow) : Prop :=
  r1.date < r2.date ∨ (r1.date = r2.date ∧ r1.zone < r2.zone)

/-- The full pipeline: normalize, sort, rolling counts, daily aggregation. -/
def daily_zone_features (rows : List RawRecord) : List DailyRow :=
  dailyAgg (tripsWithCounts (sortEvents (normalize rows)))

theorem normalize_eq_filter_map (rows : List RawRecord) :
    normalize rows = (rows.filter wellFormed).map extract := by
  induction rows with
  | nil => rfl
  | cons r rest ih =>
    cases ht : r.pickup_datetime with
    | none =>
      simp [normalize, List.filterMap_cons, wellFormed, ht] at ih ⊢
      simpa [normalize] using ih
    | some t =>
      cases hz : r.pulocation with
      | none =>
        simp [normalize, List.filterMap_cons, wellFormed, ht, hz] at ih ⊢
        simpa [normalize] using ih
      | some z =>
        simp [normalize, List.filterMap_cons, wellFormed, ht, hz, extract] at ih ⊢
        simpa [normalize] using ih

theorem normalize_length (rows : List RawRecord) :
    (normalize rows).length + rows.countP (fun r => !wellFormed r) = rows.length := by
  rw [normalize_eq_filter_map, List.length_map, ← List.countP_eq_length_filter]
  have h := List.length_eq_countP_add_countP (p := wellFormed) (l := rows)
  have h2 : rows.countP (fun a => !wellFormed a)
      = rows.countP (fun a => decide ¬(wellFormed a = true)) := by
    apply List.countP_congr
    intro a _
    by_cases hw : wellFormed a <;> simp [hw]
  omega

theorem normalize_mem (rows : List RawRecord) :
    ∀ e ∈ normalize rows, ∃ r ∈ rows,
      r.pickup_datetime = some e.ts ∧ r.pulocation = some e.zone := by
  intro e he
  rw [normalize_eq_filter_map] at he
  obtain ⟨r, hr, hre⟩ := List.mem_map.mp he
  refine ⟨r, List.mem_of_mem_filter hr, ?_⟩
  have hw : wellFormed r = true := List.of_mem_filter hr
  simp only [wellFormed, Bool.and_eq_true, Option.isSome_iff_exists] at hw
  obtain ⟨⟨t, ht⟩, ⟨z, hz⟩⟩ := hw
  subst hre
  simp [extract, ht, hz]

theorem lowerBound_le_length (a : List Int) (v : Int) : lowerBound a v ≤ a.length := by
  induction a with
  | nil => simp [lowerBound]
  | cons t rest ih =>
    simp only [lowerBound, List.length_cons]
    split <;> omega

theorem getD_lt_of_lt_lowerBound (a : List Int) (v : Int) :
    ∀ j, j < lowerBound a v → a.getD j 0 < v := by
  induction a with
  | nil => simp [lowerBound]
  | cons t rest ih =>
    intro j hj
    simp only [lowerBound] at hj
    split at hj
    · cases j with
      | zero => simpa using (by assumption : t < v)
      | succ k => exact ih k (by omega)
    · omega

theorem le_getD_lowerBound (a : List Int) (v : Int) :
    lowerBound a v < a.length → v ≤ a.getD (lowerBound a v) 0 := by
  induction a with
  | nil => simp [lowerBound]
  | cons t rest ih =>
    intro h
    by_cases htv : t < v
    · simp only [lowerBound, htv, if_true, List.length_cons] at h ⊢
      simpa [List.getD_cons_succ] using ih (by omega)
    · simp only [lowerBound, htv, if_false] at h ⊢
      simpa [List.getD_cons_zero] using (by omega : v ≤ t)

theorem sorted_getD_mono {a : List Int} (hs : List.Pairwise (· ≤ ·) a)
    {i j : Nat} (hij : i ≤ j) (hj : j < a.length) : a.getD i 0 ≤ a.getD j 0 := by
  rcases Nat.lt_or_ge i j with h | h
  · have hi : i < a.length := by omega
    rw [a.getD_eq_getElem 0 hi, a.getD_eq_getElem 0 hj]
    exact List.pairwise_iff_getElem.mp hs i j hi hj h
  · have : i = j := by omega
    subst this
    exact le_refl _

theorem le_getD_of_lowerBound_le {a : List Int} (hs : List.Pairwise (· ≤ ·) a)
    {v : Int} {j : Nat} (h1 : lowerBound a v ≤ j) (h2 : j < a.length) :
    v ≤ a.getD j 0 := by
  have hlb : lowerBound a v < a.length := by omega
  exact le_trans (le_getD_lowerBound a v hlb) (sorted_getD_mono hs h1 h2)

theorem searchLoop_eq_lowerBound {a : List Int} (hs : List.Pairwise (· ≤ ·) a)
    (v : Int) :
    ∀ fuel lo hi, hi - lo ≤ fuel → lo ≤ lowerBound a v → lowerBound a v ≤ hi →
      hi ≤ a.length → searchLoop a v lo hi = lowerBound a v := by
  intro fuel
  induction fuel with
  | zero =>
    intro lo hi h1 h2 h3 _
    rw [searchLoop]
    have : ¬ lo < hi := by omega
    simp only [this, dite_false]
    omega
  | succ n ih =>
    intro lo hi h1 h2 h3 h4
    rw [searchLoop]
    by_cases hlh : lo < hi
    · simp only [hlh, dite_true]
      set mid := (lo + hi) / 2 with hmid
      have hml : lo ≤ mid := by omega
      have hmh : mid < hi := by omega
      by_cases hcmp : a.getD mid 0 < v
      · simp only [hcmp, if_true]
        have hlt : mid < lowerBound a v := by
          by_contra hcon
          have := le_getD_of_lowerBound_le hs (v := v) (j := mid) (by omega) (by omega)
          omega
        exact ih (mid + 1) hi (by omega) (by omega) h3 h4
      · simp only [hcmp, if_false]
        have hge : lowerBound a v ≤ mid := by
          by_contra hcon
          exact hcmp (getD_lt_of_lt_lowerBound a v mid (by omega))
        exact ih lo mid (by omega) h2 hge (by omega)
    · simp only [hlh, dite_false]
      omega

theorem searchsortedLeft_eq_lowerBound {a : List Int} (hs : List.Pairwise (· ≤ ·) a)
    (v : Int) : searchsortedLeft a v = lowerBound a v :=
  searchLoop_eq_lowerBound hs v a.length 0 a.length (by omega) (Nat.zero_le _)
    (lowerBound_le_length a v) (le_refl _)

theorem rollingCounts_length (t : List Int) (w : Int) :
    (rollingCounts t w).length = t.length := by
  simp [rollingCounts]

theorem rollingCounts_getD (t : List Int) (w : Int) {i : Nat} (hi : i < t.length) :
    (rollingCounts t w).getD i 0
      = (i : Int) - (searchsortedLeft t (t.getD i 0 - w) : Int) := by
  have hlen : i < (rollingCounts t w).length := by
    simpa [rollingCounts_length] using hi
  rw [(rollingCounts t w).getD_eq_getElem 0 hlen]
  simp [rollingCounts, hi]

theorem rollingCounts_getD_sorted {t : List Int} (hs : List.Pairwise (· ≤ ·) t)
    (w : Int) {i : Nat} (hi : i < t.length) :
    (rollingCounts t w).getD i 0
      = (i : Int) - (lowerBound t (t.getD i 0 - w) : Int) := by
  rw [rollingCounts_getD t w hi, searchsortedLeft_eq_lowerBound hs]

theorem lowerBound_le_idx {t : List Int} {w : Int} (hw : 0 ≤ w)
    {i : Nat} (hi : i < t.length) :
    lowerBound t (t.getD i 0 - w) ≤ i := by
  by_contra hcon
  have := getD_lt_of_lt_lowerBound t (t.getD i 0 - w) i (by omega)
  omega

theorem lowerBound_mono (a : List Int) {v1 v2 : Int} (h : v1 ≤ v2) :
    lowerBound a v1 ≤ lowerBound a v2 := by
  induction a with
  | nil => simp [lowerBound]
  | cons t rest ih =>
    simp only [lowerBound]
    by_cases h1 : t < v1
    · simp [h1, show t < v2 by omega]
      omega
    · simp [h1]

theorem countP_lt_eq_lowerBound {a : List Int} (hs : List.Pairwise (· ≤ ·) a)
    (v : Int) : a.countP (fun s => decide (s < v)) = lowerBound a v := by
  induction a with
  | nil => simp [lowerBound]
  | cons t rest ih =>
    rcases List.pairwise_cons.mp hs with ⟨hhead, htail⟩
    by_cases htv : t < v
    · simp [List.countP_cons, lowerBound, htv, ih htail]
    · simp only [lowerBound, htv, if_false]
      have hrest : rest.countP (fun s => decide (s < v)) = 0 := by
        rw [List.countP_eq_zero]
        intro x hx
        have := hhead x hx
        simp only [decide_eq_true_eq]
        omega
      simp [List.countP_cons, htv, hrest]

theorem lowerBound_take {a : List Int} {v : Int} {i : Nat}
    (h : lowerBound a v ≤ i) : lowerBound (a.take i) v = lowerBound a v := by
  induction a generalizing i with
  | nil => simp [lowerBound]
  | cons t rest ih =>
    cases i with
    | zero =>
      have h0 : lowerBound (t :: rest) v = 0 := Nat.le_zero.mp h
      rw [List.take_zero, h0]
      simp [lowerBound]
    | succ k =>
      rw [List.take_succ_cons]
      by_cases htv : t < v
      · simp only [lowerBound, htv, if_true] at h ⊢
        rw [ih (by omega)]
      · simp only [lowerBound, htv, if_false]

/-- On a sorted partition, the computed count at index `i` is the number of
strictly earlier events whose timestamp is at least `t[i] - w`. -/
theorem count_eq_countP_take {t : List Int} (hs : List.Pairwise (· ≤ ·) t)
    {w : Int} (hw : 0 ≤ w) {i : Nat} (hi : i < t.length) :
    (rollingCounts t w).getD i 0
      = ((t.take i).countP (fun s => decide (t.getD i 0 - w ≤ s)) : Int) := by
  rw [rollingCounts_getD_sorted hs w hi]
  set v := t.getD i 0 - w with hv
  have hlb : lowerBound t v ≤ i := lowerBound_le_idx hw hi
  have hsort_take : List.Pairwise (· ≤ ·) (t.take i) :=
    hs.sublist (List.take_sublist i t)
  have hlen_take : (t.take i).length = i := by
    rw [List.length_take]
    omega
  have hsplit := List.length_eq_countP_add_countP
    (p := fun s => decide (v ≤ s)) (l := t.take i)
  have hnegP : (t.take i).countP (fun s => decide ¬(decide (v ≤ s) = true))
      = (t.take i).countP (fun s => decide (s < v)) := by
    apply List.countP_congr
    intro s _
    by_cases hcs : v ≤ s <;> simp [hcs] <;> omega
  rw [hnegP] at hsplit
  rw [countP_lt_eq_lowerBound hsort_take, lowerBound_take hlb, hlen_take] at hsplit
  omega

theorem rollingCounts_singleton (x : Int) {w : Int} (hw : 0 ≤ w) :
    rollingCounts [x] w = [0] := by
  have hs : List.Pairwise (· ≤ ·) [x] := by simp
  have hss : searchsortedLeft [x] (x - w) = 0 := by
    rw [searchsortedLeft_eq_lowerBound hs]
    simp only [lowerBound]
    rw [if_neg (by omega)]
  have hr1 : List.range 1 = [0] := rfl
  simp [rollingCounts, hr1, hss]

/-- C1 counterexample: a partition containing exactly one event receives the
rolling count 0 (not 1) for every configured window, so the claimed lower
bound `1 ≤ count` fails. -/
theorem C1_counterexample :
    rollingCounts [0] ns_1h = [0] ∧ rollingCounts [0] ns_6h = [0] ∧
    rollingCounts [0] ns_24h = [0] ∧ rollingCounts [0] ns_1h ≠ [1] := by
  have h1 := rollingCounts_singleton 0 (w := ns_1h) (by decide)
  have h6 := rollingCounts_singleton 0 (w := ns_6h) (by decide)
  have h24 := rollingCounts_singleton 0 (w := ns_24h) (by decide)
  refine ⟨h1, h6, h24, ?_⟩
  rw [h1]
  decide

/-- C1 (amended): for every sorted entity partition and every nonnegative
window, the rolling count at local index `i` satisfies
`0 ≤ count ≤ i < partition length` (so `count ≤ partition length - 1`), and
a partition of length 1 produces count 0 for every window size. -/
theorem C1_count_bounds {t : List Int} (hs : List.Pairwise (· ≤ ·) t)
    {w : Int} (hw : 0 ≤ w) :
    (∀ i, i < t.length → 0 ≤ (rollingCounts t w).getD i 0 ∧
      (rollingCounts t w).getD i 0 ≤ (i : Int) ∧ (i : Int) < (t.length : Int)) ∧
    (∀ x : Int, rollingCounts [x] w = [0]) := by
  constructor
  · intro i hi
    rw [rollingCounts_getD_sorted hs w hi]
    have h1 := lowerBound_le_idx (t := t) hw hi
    refine ⟨by omega, by omega, by exact_mod_cast hi⟩
  · intro x
    exact rollingCounts_singleton x hw

/-- Witness for C1_count_bounds at the sorted partition `[10, 20]`. -/
theorem C1_count_bounds_witness :
    0 ≤ (rollingCounts [10, 20] ns_1h).getD 1 0 :=
  (((C1_count_bounds (t := [10, 20]) (by decide) (w := ns_1h) (by decide)).1) 1
    (by decide)).1

/-- C2 counterexample: for the one-event partition `[1000]` the computed 1h
count is 0, but the count of events in the half-open interval `(t - w, t]`
inclusive of the event itself is 1: the code does not compute the inclusive
interval count the claim describes. -/
theorem C2_counterexample :
    rollingCounts [1000] ns_1h = [0] ∧ windowIntervalCount [1000] 0 ns_1h = 1 := by
  refine ⟨rollingCounts_singleton 1000 (by decide), ?_⟩
  decide

/-- C2 (amended): on a sorted partition with nonnegative window, the count
at local index `i` equals `i - lower_bound(t[i] - w)`, where
`lower_bound(x)` is the least local index holding a timestamp `≥ x` (all
earlier indices hold smaller timestamps, all later ones at least `x`); this
equals the number of strictly earlier events with timestamp in
`[t[i] - w, t[i]]`, not the inclusive count over `(t[i] - w, t[i]]`. -/
theorem C2_count_formula {t : List Int} (hs : List.Pairwise (· ≤ ·) t)
    {w : Int} (hw : 0 ≤ w) {i : Nat} (hi : i < t.length) :
    (rollingCounts t w).getD i 0
        = (i : Int) - (lowerBound t (t.getD i 0 - w) : Int) ∧
    (∀ j, j < lowerBound t (t.getD i 0 - w) → t.getD j 0 < t.getD i 0 - w) ∧
    (∀ j, lowerBound t (t.getD i 0 - w) ≤ j → j < t.length →
      t.getD i 0 - w ≤ t.getD j 0) ∧
    (rollingCounts t w).getD i 0
        = ((t.take i).countP (fun s => decide (t.getD i 0 - w ≤ s)) : Int) := by
  refine ⟨rollingCounts_getD_sorted hs w hi, ?_, ?_, count_eq_countP_take hs hw hi⟩
  · intro j hj
    exact getD_lt_of_lt_lowerBound t _ j hj
  · intro j h1 h2
    exact le_getD_of_lowerBound_le hs h1 h2

/-- Witness for C2_count_formula at the four-event partition of C4,
local index 2. -/
theorem C2_count_formula_witness :
    (rollingCounts [0, 1800000000000, 3600000000000, 7200000000000] ns_1h).getD 2 0
      = (2 : Int) - (lowerBound [0, 1800000000000, 3600000000000, 7200000000000]
          (([0, 1800000000000, 3600000000000, 7200000000000] : List Int).getD 2 0
            - ns_1h) : Int) :=
  (C2_count_formula (t := [0, 1800000000000, 3600000000000, 7200000000000])
    (by decide) (w := ns_1h) (by decide) (i := 2) (by decide)).1

/-- C3: for every event of a sorted partition the rolling counts are
monotонically non-decreasing in the window size:
`count(1h) ≤ count(6h) ≤ count(24h)`. -/
theorem C3_window_nesting {t : List Int} (hs : List.Pairwise (· ≤ ·) t)
    {i : Nat} (hi : i < t.length) :
    (rollingCounts t ns_1h).getD i 0 ≤ (rollingCounts t ns_6h).getD i 0 ∧
    (rollingCounts t ns_6h).getD i 0 ≤ (rollingCounts t ns_24h).getD i 0 := by
  rw [rollingCounts_getD_sorted hs ns_1h hi, rollingCounts_getD_sorted hs ns_6h hi,
    rollingCounts_getD_sorted hs ns_24h hi]
  have h61 := lowerBound_mono t
    (show t.getD i 0 - ns_6h ≤ t.getD i 0 - ns_1h by
      simp only [ns_1h, ns_6h]; omega)
  have h246 := lowerBound_mono t
    (show t.getD i 0 - ns_24h ≤ t.getD i 0 - ns_6h by
      simp only [ns_6h, ns_24h]; omega)
  omega

/-- Witness for C3_window_nesting at the four-event partition, index 3. -/
theorem C3_window_nesting_witness :
    (rollingCounts [0, 1800000000000, 3600000000000, 7200000000000] ns_1h).getD 3 0
      ≤ (rollingCounts [0, 1800000000000, 3600000000000, 7200000000000] ns_6h).getD 3 0 :=
  (C3_window_nesting (t := [0, 1800000000000, 3600000000000, 7200000000000])
    (by decide) (i := 3) (by decide)).1

/-- C4: for the single-entity partition with timestamps 00:00, 00:30,
01:00, 02:00 (in nanoseconds), the computed 1-hour rolling count is 2 at
the 01:00 event (local index 2) and 1 at the 02:00 event (local index 3). -/
theorem C4_concrete_counts :
    (rollingCounts [0, 1800000000000, 3600000000000, 7200000000000] ns_1h).getD 2 0 = 2 ∧
    (rollingCounts [0, 1800000000000, 3600000000000, 7200000000000] ns_1h).getD 3 0 = 1 := by
  have hs : List.Pairwise (· ≤ ·)
      ([0, 1800000000000, 3600000000000, 7200000000000] : List Int) := by decide
  constructor
  · rw [rollingCounts_getD_sorted hs ns_1h (i := 2) (by decide)]
    decide
  · rw [rollingCounts_getD_sorted hs ns_1h (i := 3) (by decide)]
    decide

/-- C5 counterexample: the counter performs no sortedness validation; fed
an unsorted partition it silently returns binary-search results instead of
aborting, here even the impossible negative count -2. -/
theorem C5_counterexample :
    ¬ List.Pairwise (· ≤ ·) ([7200000000000, 0] : List Int) ∧
    rollingCounts [7200000000000, 0] ns_1h = [-2, 1] := by
  constructor
  · decide
  · have h0 : searchLoop [7200000000000, 0] 3600000000000 0 2 = 2 := by
      simp [searchLoop]
    have h1 : searchLoop [7200000000000, 0] (-3600000000000) 0 2 = 0 := by
      simp [searchLoop]
    simp [rollingCounts, searchsortedLeft, ns_1h, List.range_succ, h0, h1]

/-- C5 (amended): the Rolling Window Counter is a total function with no
sortedness precondition check: for every partition input, sorted or not, it
returns one count per event (rather than aborting with a diagnostic). -/
theorem C5_no_sort_check :
    ∀ (t : List Int) (w : Int), (rollingCounts t w).length = t.length := by
  intro t w
  exact rollingCounts_length t w

/-- C10: on a sorted partition with nonnegative window, each computed count
is the number of strictly earlier events (the event itself excluded) with
timestamp at least `t[i] - w` (left boundary included); hence the count is
at most the local index, and the first event of a partition gets count 0. -/
theorem C10_strictly_earlier {t : List Int} (hs : List.Pairwise (· ≤ ·) t)
    {w : Int} (hw : 0 ≤ w) :
    (∀ i, i < t.length →
      (rollingCounts t w).getD i 0
        = ((t.take i).countP (fun s => decide (t.getD i 0 - w ≤ s)) : Int) ∧
      (rollingCounts t w).getD i 0 ≤ (i : Int)) ∧
    (0 < t.length → (rollingCounts t w).getD 0 0 = 0) := by
  constructor
  · intro i hi
    refine ⟨count_eq_countP_take hs hw hi, ?_⟩
    rw [rollingCounts_getD_sorted hs w hi]
    omega
  · intro h0
    have h := count_eq_countP_take hs hw (i := 0) h0
    simpa using h

/-- Witness for C10_strictly_earlier: the first event of the four-event
partition gets 1h count 0. -/
theorem C10_strictly_earlier_witness :
    (rollingCounts [0, 1800000000000, 3600000000000, 7200000000000] ns_1h).getD 0 0 = 0 :=
  (C10_strictly_earlier (t := [0, 1800000000000, 3600000000000, 7200000000000])
    (by decide) (w := ns_1h) (by decide)).2 (by decide)

theorem eventLE_trans : ∀ a b c : Event, eventLE a b → eventLE b c → eventLE a c := by
  intro a b c hab hbc
  simp only [eventLE, Bool.or_eq_true, Bool.and_eq_true, decide_eq_true_eq] at hab hbc ⊢
  omega

theorem eventLE_total : ∀ a b : Event, eventLE a b || eventLE b a := by
  intro a b
  simp only [eventLE, Bool.or_eq_true, Bool.and_eq_true, decide_eq_true_eq]
  omega

theorem stableLT_of_enumLE {p q : Nat × Event}
    (h1 : List.enumLE eventLE p q = true) (h2 : p.1 ≠ q.1) : stableLT p q := by
  simp only [List.enumLE, eventLE, Bool.if_false_right, Bool.if_true_right,
    Bool.and_eq_true, Bool.or_eq_true, Bool.not_eq_true', Bool.or_eq_false_iff,
    Bool.and_eq_false_iff, decide_eq_true_eq, decide_eq_false_iff_not] at h1
  simp only [stableLT]
  omega

theorem sortWithIndex_proj (l : List Event) :
    (sortWithIndex l).map (fun p => p.2) = sortEvents l :=
  List.mergeSort_enum

theorem sortWithIndex_perm (l : List Event) :
    (sortWithIndex l).Perm l.enum :=
  List.mergeSort_perm l.enum (List.enumLE eventLE)

theorem sortWithIndex_fst_nodup (l : List Event) :
    ((sortWithIndex l).map Prod.fst).Nodup := by
  have hp : ((sortWithIndex l).map Prod.fst).Perm (l.enum.map Prod.fst) :=
    (sortWithIndex_perm l).map Prod.fst
  rw [List.enum_map_fst] at hp
  exact hp.nodup_iff.mpr (List.nodup_range l.length)

theorem sortWithIndex_pairwise (l : List Event) :
    (sortWithIndex l).Pairwise stableLT := by
  have hsorted : (sortWithIndex l).Pairwise (fun p q => List.enumLE eventLE p q = true) :=
    List.sorted_mergeSort (List.enumLE_trans eventLE_trans)
      (List.enumLE_total eventLE_total) l.enum
  have hne : (sortWithIndex l).Pairwise (fun p q => p.1 ≠ q.1) :=
    (List.pairwise_map).mp (sortWithIndex_fst_nodup l)
  exact (hsorted.and hne).imp fun h => stableLT_of_enumLE h.1 h.2

theorem sortEvents_pairwise (l : List Event) :
    (sortEvents l).Pairwise (fun a b => eventLE a b = true) :=
  List.sorted_mergeSort eventLE_trans eventLE_total l

theorem sortEvents_zone_pairwise (l : List Event) :
    ((sortEvents l).map Event.zone).Pairwise (· ≤ ·) := by
  refine List.Pairwise.map Event.zone ?_ (sortEvents_pairwise l)
  intro a b hab
  simp only [eventLE, Bool.or_eq_true, Bool.and_eq_true, decide_eq_true_eq] at hab
  omega

theorem mem_zoneStarts {zs : List Int} {i : Nat} :
    i ∈ zoneStarts zs ↔
      i < zs.length ∧ (i = 0 ∨ zs.getD (i - 1) 0 ≠ zs.getD i 0) := by
  simp only [zoneStarts, List.mem_filter, List.mem_range, Bool.or_eq_true,
    decide_eq_true_eq]

theorem zoneStarts_sorted (zs : List Int) :
    (zoneStarts zs).Pairwise (· < ·) :=
  (List.pairwise_lt_range zs.length).filter _

theorem zoneStarts_cons {zs : List Int} (h : 0 < zs.length) :
    zoneStarts zs = 0 :: (zoneStarts zs).tail := by
  have h0 : 0 ∈ zoneStarts zs := mem_zoneStarts.mpr ⟨h, Or.inl rfl⟩
  cases hzs : zoneStarts zs with
  | nil =>
    rw [hzs] at h0
    exact absurd h0 (List.not_mem_nil 0)
  | cons s rest =>
    rw [hzs] at h0
    have hp := zoneStarts_sorted zs
    rw [hzs] at hp
    rcases List.mem_cons.mp h0 with heq | hmem
    · simp [heq.symm]
    · have := (List.pairwise_cons.mp hp).1 0 hmem
      omega

theorem tile_ranges : ∀ (ss : List Nat) (a n : Nat), a ≤ n →
    List.Chain (· < ·) a ss → (∀ s ∈ ss, s < n) →
    ((a :: ss).zip (ss ++ [n])).flatMap (fun p => List.range' p.1 (p.2 - p.1))
      = List.range' a (n - a) := by
  intro ss
  induction ss with
  | nil =>
    intro a n han _ _
    simp [List.zip]
  | cons b ss ih =>
    intro a n han hchain hmem
    have hab : a < b := (List.chain_cons.mp hchain).1
    have hbn : b < n := hmem b (List.mem_cons_self b ss)
    have hrest := ih b n (by omega) (List.chain_cons.mp hchain).2
      (fun s hs => hmem s (List.mem_cons_of_mem b hs))
    simp only [List.cons_append, List.zip_cons_cons, List.flatMap_cons] at hrest ⊢
    rw [hrest]
    have happ := List.range'_append a (b - a) (n - b) 1
    rw [show a + 1 * (b - a) = b by omega] at happ
    rw [show (n - b) + (b - a) = n - a by omega] at happ
    exact happ

theorem zoneRanges_tile (zs : List Int) :
    (zoneRanges zs).flatMap (fun p => List.range' p.1 (p.2 - p.1))
      = List.range zs.length := by
  rcases Nat.eq_zero_or_pos zs.length with h0 | hpos
  · have hnil : zs = [] := List.length_eq_zero.mp h0
    subst hnil
    rfl
  · have hcons := zoneStarts_cons hpos
    have hp := zoneStarts_sorted zs
    rw [hcons] at hp
    have hchain : List.Chain (· < ·) 0 (zoneStarts zs).tail :=
      List.chain_iff_pairwise.mpr hp
    have hmem : ∀ s ∈ (zoneStarts zs).tail, s < zs.length := by
      intro s hs
      have : s ∈ zoneStarts zs := by
        rw [hcons]
        exact List.mem_cons_of_mem 0 hs
      exact (mem_zoneStarts.mp this).1
    have := tile_ranges (zoneStarts zs).tail 0 zs.length (Nat.zero_le _) hchain hmem
    rw [zoneRanges, zoneEnds, hcons]
    rw [List.tail_cons]
    rw [this]
    rw [List.range_eq_range' zs.length]
    congr 1

theorem zoneEnds_length {zs : List Int} (h : 0 < zs.length) :
    (zoneEnds zs).length = (zoneStarts zs).length := by
  rw [zoneEnds]
  conv_rhs => rw [zoneStarts_cons h]
  simp

theorem zoneRanges_length {zs : List Int} (h : 0 < zs.length) :
    (zoneRanges zs).length = (zoneStarts zs).length := by
  rw [zoneRanges, List.length_zip, zoneEnds_length h, Nat.min_self]

theorem zoneStarts_getD_lt {zs : List Int} {m1 m2 : Nat}
    (h12 : m1 < m2) (h2 : m2 < (zoneStarts zs).length) :
    (zoneStarts zs).getD m1 0 < (zoneStarts zs).getD m2 0 := by
  have hp := zoneStarts_sorted zs
  rw [(zoneStarts zs).getD_eq_getElem 0 (by omega),
    (zoneStarts zs).getD_eq_getElem 0 h2]
  exact List.pairwise_iff_getElem.mp hp m1 m2 (by omega) h2 h12

theorem zoneStarts_getD_mem {zs : List Int} {k : Nat}
    (hk : k < (zoneStarts zs).length) :
    (zoneStarts zs).getD k 0 ∈ zoneStarts zs := by
  rw [(zoneStarts zs).getD_eq_getElem 0 hk]
  exact List.getElem_mem hk

theorem zoneRanges_getD {zs : List Int} (hpos : 0 < zs.length) {k : Nat}
    (hks : k < (zoneStarts zs).length) :
    (zoneRanges zs).getD k (0, 0)
      = ((zoneStarts zs).getD k 0,
         if k + 1 < (zoneStarts zs).length then (zoneStarts zs).getD (k + 1) 0
         else zs.length) := by
  have hkr : k < (zoneRanges zs).length := by
    rw [zoneRanges_length hpos]
    exact hks
  have hke : k < (zoneEnds zs).length := by
    rw [zoneEnds_length hpos]
    exact hks
  rw [(zoneRanges zs).getD_eq_getElem (0, 0) hkr]
  simp only [zoneRanges]
  rw [List.getElem_zip]
  have h1 : (zoneStarts zs).get ⟨k, hks⟩ = (zoneStarts zs).getD k 0 := by
    rw [(zoneStarts zs).getD_eq_getElem 0 hks]
    simp
  have htl : (zoneStarts zs).tail.length = (zoneStarts zs).length - 1 := by
    simp
  have hlen0 : 0 < (zoneStarts zs).length := by
    rw [zoneStarts_cons hpos]
    simp
  refine Prod.ext ?_ ?_
  · exact ((zoneStarts zs).getD_eq_getElem 0 hks).symm
  · show (zoneEnds zs).get ⟨k, hke⟩ = _
    rw [List.get_eq_getElem]
    simp only [zoneEnds]
    by_cases hk1 : k + 1 < (zoneStarts zs).length
    · rw [List.getElem_append_left (by omega)]
      rw [List.getElem_tail]
      simp only [hk1, if_true]
      rw [(zoneStarts zs).getD_eq_getElem 0 hk1]
    · have hkeq : k = (zoneStarts zs).tail.length := by omega
      rw [List.getElem_append_right (by omega)]
      simp only [hk1, if_false]
      simp [hkeq]

theorem no_start_inside {zs : List Int} {k : Nat}
    (hks : k < (zoneStarts zs).length) {j : Nat}
    (h1 : (zoneStarts zs).getD k 0 < j)
    (h2 : j < (if k + 1 < (zoneStarts zs).length then (zoneStarts zs).getD (k + 1) 0
               else zs.length)) :
    j ∉ zoneStarts zs := by
  intro hj
  obtain ⟨m, hm, hjm⟩ := List.mem_iff_getElem.mp hj
  have hjm2 : (zoneStarts zs).getD m 0 = j := by
    rw [(zoneStarts zs).getD_eq_getElem 0 hm]
    exact hjm
  rcases Nat.lt_or_ge k m with hkm | hkm
  · have hk1 : k + 1 < (zoneStarts zs).length := by omega
    simp only [hk1, if_true] at h2
    have hle : (zoneStarts zs).getD (k + 1) 0 ≤ (zoneStarts zs).getD m 0 := by
      rcases Nat.eq_or_lt_of_le (show k + 1 ≤ m by omega) with heq | hlt
      · rw [heq]
      · exact le_of_lt (zoneStarts_getD_lt hlt hm)
    omega
  · have hle : (zoneStarts zs).getD m 0 ≤ (zoneStarts zs).getD k 0 := by
      rcases Nat.eq_or_lt_of_le hkm with heq | hlt
      · rw [heq]
      · exact le_of_lt (zoneStarts_getD_lt hlt hks)
    omega

theorem zs_const_in_range {zs : List Int} {s : Nat} :
    ∀ i : Nat, s ≤ i → i < zs.length →
    (∀ j, s < j → j ≤ i → j ∉ zoneStarts zs) →
    zs.getD i 0 = zs.getD s 0 := by
  intro i
  induction i with
  | zero =>
    intro h1 _ _
    have : s = 0 := by omega
    rw [this]
  | succ m ih =>
    intro h1 h2 h3
    rcases Nat.eq_or_lt_of_le h1 with heq | hlt
    · rw [heq]
    · have hnotmem : (m + 1) ∉ zoneStarts zs := h3 (m + 1) (by omega) (le_refl _)
      have heq : zs.getD m 0 = zs.getD (m + 1) 0 := by
        by_contra hne
        exact hnotmem (mem_zoneStarts.mpr ⟨h2, Or.inr hne⟩)
      rw [← heq]
      exact ih (by omega) (by omega) (fun j ha hb => h3 j ha (by omega))

theorem zoneRange_exact {zs : List Int} (hsorted : zs.Pairwise (· ≤ ·))
    (hpos : 0 < zs.length) {k : Nat} (hks : k < (zoneStarts zs).length) :
    (zoneStarts zs).getD k 0
        < (if k + 1 < (zoneStarts zs).length then (zoneStarts zs).getD (k + 1) 0
           else zs.length) ∧
    (if k + 1 < (zoneStarts zs).length then (zoneStarts zs).getD (k + 1) 0
     else zs.length) ≤ zs.length ∧
    ∀ i, i < zs.length →
      (((zoneStarts zs).getD k 0 ≤ i ∧
        i < (if k + 1 < (zoneStarts zs).length then (zoneStarts zs).getD (k + 1) 0
             else zs.length)) ↔
       zs.getD i 0 = zs.getD ((zoneStarts zs).getD k 0) 0) := by
  set s := (zoneStarts zs).getD k 0 with hs
  set e := (if k + 1 < (zoneStarts zs).length then (zoneStarts zs).getD (k + 1) 0
            else zs.length) with he
  have hsmem : s ∈ zoneStarts zs := zoneStarts_getD_mem hks
  have hslen : s < zs.length := (mem_zoneStarts.mp hsmem).1
  have hse : s < e := by
    rw [he]
    by_cases hk1 : k + 1 < (zoneStarts zs).length
    · simp only [hk1, if_true]
      exact zoneStarts_getD_lt (by omega) hk1
    · simp only [hk1, if_false]
      exact hslen
  have helen : e ≤ zs.length := by
    rw [he]
    by_cases hk1 : k + 1 < (zoneStarts zs).length
    · simp only [hk1, if_true]
      have := mem_zoneStarts.mp (zoneStarts_getD_mem hk1)
      omega
    · simp [hk1]
  have hfwd : ∀ i, s ≤ i → i < e → zs.getD i 0 = zs.getD s 0 := by
    intro i hi1 hi2
    refine zs_const_in_range i hi1 (by omega) ?_
    intro j hj1 hj2
    exact no_start_inside hks hj1 (by rw [← he]; omega)
  refine ⟨hse, helen, ?_⟩
  intro i hilen
  constructor
  · intro hmem
    exact hfwd i hmem.1 hmem.2
  · intro hzeq
    by_contra hcon
    rcases Nat.lt_or_ge i s with his | his
    · have hs0 : 0 < s := by omega
      have hmono1 : zs.getD i 0 ≤ zs.getD (s - 1) 0 :=
        sorted_getD_mono hsorted (by omega) (by omega)
      have hmono2 : zs.getD (s - 1) 0 ≤ zs.getD s 0 :=
        sorted_getD_mono hsorted (by omega) hslen
      have hboundary := (mem_zoneStarts.mp hsmem).2
      rcases hboundary with h0 | hne
      · omega
      · exact hne (by omega)
    · have hie : e ≤ i := by omega
      have hk1 : k + 1 < (zoneStarts zs).length := by
        by_contra hk1
        rw [he] at hie
        simp only [hk1, if_false] at hie
        omega
      have hemem : e ∈ zoneStarts zs := by
        rw [he]
        simp only [hk1, if_true]
        exact zoneStarts_getD_mem hk1
      have heboundary := (mem_zoneStarts.mp hemem).2
      have helen2 : e < zs.length := by omega
      have hconst : zs.getD (e - 1) 0 = zs.getD s 0 :=
        hfwd (e - 1) (by omega) (by omega)
      have hmono1 : zs.getD (e - 1) 0 ≤ zs.getD e 0 :=
        sorted_getD_mono hsorted (by omega) helen2
      have hmono2 : zs.getD e 0 ≤ zs.getD i 0 :=
        sorted_getD_mono hsorted hie hilen
      rcases heboundary with h0 | hne
      · omega
      · exact hne (by omega)

/-- C6: the Entity Partitioner output is sorted primarily by entity id
ascending and secondarily by timestamp ascending with input order kept on
full-key ties (stable sort), it is a permutation of the (position-tagged)
input, and the zone `(start, end)` index ranges tile the sorted array
exactly once, each range holding exactly the indices of one entity id. -/
theorem C6_partitioner (l : List Event) :
    (sortWithIndex l).map (fun p => p.2) = sortEvents l ∧
    (sortWithIndex l).Perm l.enum ∧
    (sortWithIndex l).Pairwise stableLT ∧
    ((zoneRanges ((sortEvents l).map Event.zone)).flatMap
        (fun p => List.range' p.1 (p.2 - p.1))
      = List.range ((sortEvents l).map Event.zone).length) ∧
    ∀ p ∈ zoneRanges ((sortEvents l).map Event.zone), p.1 < p.2 ∧
      ∀ i, i < ((sortEvents l).map Event.zone).length →
        ((p.1 ≤ i ∧ i < p.2) ↔
          ((sortEvents l).map Event.zone).getD i 0
            = ((sortEvents l).map Event.zone).getD p.1 0) := by
  refine ⟨sortWithIndex_proj l, sortWithIndex_perm l, sortWithIndex_pairwise l,
    zoneRanges_tile _, ?_⟩
  intro p hp
  set zs := (sortEvents l).map Event.zone with hzs
  have hpos : 0 < zs.length := by
    by_contra h0
    have hlen : zs.length = 0 := by omega
    have hnil : zs = [] := List.length_eq_zero.mp hlen
    rw [hnil] at hp
    simp [zoneRanges, zoneStarts, zoneEnds] at hp
  obtain ⟨k, hk, hpk⟩ := List.mem_iff_getElem.mp hp
  have hkr : k < (zoneStarts zs).length := by
    rw [← zoneRanges_length hpos]
    exact hk
  have hgd : (zoneRanges zs).getD k (0, 0) = p := by
    rw [(zoneRanges zs).getD_eq_getElem (0, 0) hk]
    exact hpk
  rw [zoneRanges_getD hpos hkr] at hgd
  rcases p with ⟨p1, p2⟩
  have h1 : (zoneStarts zs).getD k 0 = p1 := congrArg Prod.fst hgd
  have h2 : (if k + 1 < (zoneStarts zs).length then (zoneStarts zs).getD (k + 1) 0
      else zs.length) = p2 := congrArg Prod.snd hgd
  have hex := zoneRange_exact (sortEvents_zone_pairwise l) hpos hkr
  rw [h1, h2] at hex
  exact ⟨hex.1, fun i hi => hex.2.2 i hi⟩

/-- Witness for C6_partitioner at a concrete two-event input. -/
theorem C6_partitioner_witness :
    (sortWithIndex ([⟨5, 2⟩, ⟨3, 1⟩] : List Event)).map (fun p => p.2)
      = sortEvents ([⟨5, 2⟩, ⟨3, 1⟩] : List Event) :=
  (C6_partitioner [⟨5, 2⟩, ⟨3, 1⟩]).1

/-- C7: the Event Normalizer drops exactly the raw rows missing the
timestamp or the entity id field (keeping the well-formed rows in input
order), every returned event carries the field values of a present input
row, and the number of dropped rows is recoverable only as the aggregate
count of malformed rows. -/
theorem C7_normalizer (rows : List RawRecord) :
    normalize rows = (rows.filter wellFormed).map extract ∧
    (normalize rows).length + rows.countP (fun r => !wellFormed r) = rows.length ∧
    ∀ e ∈ normalize rows, ∃ r ∈ rows,
      r.pickup_datetime = some e.ts ∧ r.pulocation = some e.zone :=
  ⟨normalize_eq_filter_map rows, normalize_length rows, normalize_mem rows⟩

/-- Witness for C7_normalizer: one well-formed plus one malformed row. -/
theorem C7_normalizer_witness :
    (normalize [⟨some 5, some 1⟩, ⟨none, some 2⟩]).length
      + ([⟨some 5, some 1⟩, (⟨none, some 2⟩ : RawRecord)].countP
          (fun r => !wellFormed r))
      = 2 := by
  have h := (C7_normalizer [⟨some 5, some 1⟩, ⟨none, some 2⟩]).2.1
  simpa using h

theorem map_range_getD {α : Type} (xs : List α) (d : α) :
    (List.range xs.length).map (fun i => xs.getD i d) = xs := by
  apply List.ext_getElem
  · simp
  · intro i h1 h2
    simp only [List.getElem_map, List.getElem_range]
    exact xs.getD_eq_getElem d h2

theorem attachCounts_zone (part : List Event) :
    (attachCounts part).map Trip.zone = part.map Event.zone := by
  simp only [attachCounts, List.map_map]
  have hlen : part.length = (part.map Event.zone).length := (List.length_map part Event.zone).symm
  rw [show ((Trip.zone ∘ fun i : Nat =>
      ({ ts := (part.map Event.ts).getD i 0
         zone := (part.map Event.zone).getD i 0
         rolling_1h := (rollingCounts (part.map Event.ts) ns_1h).getD i 0
         rolling_6h := (rollingCounts (part.map Event.ts) ns_6h).getD i 0
         rolling_24h := (rollingCounts (part.map Event.ts) ns_24h).getD i 0 } : Trip)))
    = fun i : Nat => (part.map Event.zone).getD i 0 from rfl]
  rw [hlen]
  exact map_range_getD (part.map Event.zone) 0

theorem flatMap_attach_zone (gs : List (List Event)) :
    (gs.flatMap attachCounts).map Trip.zone
      = (gs.flatMap (fun g => g)).map Event.zone := by
  induction gs with
  | nil => rfl
  | cons g gs ih =>
    simp only [List.flatMap_cons, List.map_append, ih, attachCounts_zone]

theorem chunkByZone_join (l : List Event) :
    (chunkByZone l).flatMap (fun g => g) = l := by
  induction l with
  | nil => rfl
  | cons e rest ih =>
    simp only [chunkByZone]
    split
    · rename_i heq
      rw [heq] at ih
      simp only [List.flatMap_nil] at ih
      simp [← ih]
    · rename_i x gs heq
      rw [heq] at ih
      simp only [List.flatMap_cons, List.nil_append] at ih
      simp [ih]
    · rename_i x f g gs heq
      rw [heq] at ih
      simp only [List.flatMap_cons] at ih
      by_cases hz : e.zone = f.zone
      · rw [if_pos hz]
        simp only [List.flatMap_cons, List.cons_append]
        exact congrArg (fun xs => e :: xs) ih
      · rw [if_neg hz]
        simp only [List.flatMap_cons, List.cons_append, List.nil_append]
        exact congrArg (fun xs => e :: xs) ih

theorem tripsWithCounts_zone (l : List Event) :
    (tripsWithCounts l).map Trip.zone = l.map Event.zone := by
  rw [tripsWithCounts, flatMap_attach_zone, chunkByZone_join]

theorem sum_map_add {α : Type} (l : List α) (f g : α → Nat) :
    (l.map fun x => f x + g x).sum = (l.map f).sum + (l.map g).sum := by
  induction l with
  | nil => rfl
  | cons x l ih =>
    simp only [List.map_cons, List.sum_cons, ih]
    omega

theorem sum_map_indicator {α : Type} [DecidableEq α] (l : List α) (x : α)
    (hnd : l.Nodup) :
    (l.map fun k => if x = k then 1 else 0).sum
      = if x ∈ l then 1 else 0 := by
  induction l with
  | nil => rfl
  | cons a l ih =>
    rcases List.nodup_cons.mp hnd with ⟨hna, hndl⟩
    by_cases h : x = a
    · subst h
      have hnotin : x ∉ l := hna
      rw [List.map_cons, List.sum_cons, if_pos rfl, ih hndl,
        if_neg hnotin, if_pos (List.mem_cons_self x l)]
    · rw [List.map_cons, List.sum_cons, if_neg h, ih hndl]
      by_cases hm : x ∈ l
      · rw [if_pos hm, if_pos (List.mem_cons_of_mem a hm)]
      · rw [if_neg hm, if_neg (by simp [List.mem_cons, h, hm])]

theorem dailyKeys_nodup (trips : List Trip) : (dailyKeys trips).Nodup :=
  (List.mergeSort_perm ((trips.map dailyKey).dedup) keyLE).nodup_iff.mpr
    (List.nodup_dedup _)

theorem dailyKey_mem_keys {trips : List Trip} {tr : Trip} (h : tr ∈ trips) :
    dailyKey tr ∈ dailyKeys trips := by
  rw [dailyKeys, List.mem_mergeSort]
  exact List.mem_dedup.mpr (List.mem_map_of_mem dailyKey h)

theorem sum_countP_keys (z : Int) :
    ∀ (trips : List Trip) (ks : List (Int × Int)), ks.Nodup →
    (∀ tr ∈ trips, dailyKey tr ∈ ks) →
    ((ks.filter fun k => decide (k.2 = z)).map
        (fun k => trips.countP fun tr => decide (dailyKey tr = k))).sum
      = trips.countP fun tr => decide (tr.zone = z) := by
  intro trips
  induction trips with
  | nil =>
    intro ks _ _
    simp
  | cons tr trips ih =>
    intro ks hnd hall
    have hall2 : ∀ a ∈ trips, dailyKey a ∈ ks :=
      fun a ha => hall a (List.mem_cons_of_mem tr ha)
    have hmapeq : ((ks.filter fun k => decide (k.2 = z)).map
        (fun k => (tr :: trips).countP fun a => decide (dailyKey a = k)))
      = ((ks.filter fun k => decide (k.2 = z)).map
        (fun k => (trips.countP fun a => decide (dailyKey a = k))
          + (if dailyKey tr = k then 1 else 0))) := by
      apply List.map_congr_left
      intro k _
      rw [List.countP_cons]
      congr 1
      by_cases h : dailyKey tr = k <;> simp [h]
    rw [hmapeq, sum_map_add, ih ks hnd hall2,
      sum_map_indicator _ _ (hnd.filter _), List.countP_cons]
    by_cases hz : tr.zone = z
    · have hmem : dailyKey tr ∈ ks.filter fun k => decide (k.2 = z) :=
        List.mem_filter.mpr ⟨hall tr (List.mem_cons_self tr trips),
          by simp [dailyKey, hz]⟩
      rw [if_pos hmem]
      simp [hz]
    · have hmem : dailyKey tr ∉ ks.filter fun k => decide (k.2 = z) := by
        intro hc
        have h2 := (List.mem_filter.mp hc).2
        simp only [dailyKey, decide_eq_true_eq] at h2
        exact hz h2
      rw [if_neg hmem]
      simp [hz]

theorem dailyAgg_sum_zone (trips : List Trip) (z : Int) :
    (((dailyAgg trips).filter fun row => decide (row.zone = z)).map
        (fun row => row.daily_trips)).sum
      = trips.countP fun tr => decide (tr.zone = z) := by
  rw [dailyAgg, List.filter_map, List.map_map]
  have hfil : ((fun row : DailyRow => decide (row.zone = z)) ∘ mkDailyRow trips)
      = fun k : Int × Int => decide (k.2 = z) := rfl
  have hdt : ((fun row : DailyRow => row.daily_trips) ∘ mkDailyRow trips)
      = fun k : Int × Int => trips.countP fun tr => decide (dailyKey tr = k) := by
    funext k
    show (keyGroup trips k).length = _
    rw [keyGroup, ← List.countP_eq_length_filter]
  rw [hfil, hdt]
  exact sum_countP_keys z trips (dailyKeys trips) (dailyKeys_nodup trips)
    (fun tr h => dailyKey_mem_keys h)

/-- C8: for every entity, the sum of `daily_trips` over all output rows of
that entity equals the number of normalized events of that entity: the
daily (date, zone) grouping loses and duplicates no events. -/
theorem C8_daily_sum (rows : List RawRecord) (z : Int) :
    (((daily_zone_features rows).filter fun row => decide (row.zone = z)).map
        (fun row => row.daily_trips)).sum
      = (normalize rows).countP fun e => decide (e.zone = z) := by
  rw [daily_zone_features, dailyAgg_sum_zone]
  rw [show (fun tr : Trip => decide (tr.zone = z))
      = ((fun y : Int => decide (y = z)) ∘ Trip.zone) from rfl]
  rw [← List.countP_map]
  rw [tripsWithCounts_zone]
  have hperm : ((sortEvents (normalize rows)).map Event.zone).Perm
      ((normalize rows).map Event.zone) :=
    (List.mergeSort_perm (normalize rows) eventLE).map Event.zone
  rw [hperm.countP_eq]
  rw [List.countP_map]
  rfl

theorem keyLE_trans : ∀ a b c : Int × Int, keyLE a b → keyLE b c → keyLE a c := by
  intro a b c h1 h2
  simp only [keyLE, Bool.or_eq_true, Bool.and_eq_true, decide_eq_true_eq] at h1 h2 ⊢
  omega

theorem keyLE_total : ∀ a b : Int × Int, keyLE a b || keyLE b a := by
  intro a b
  simp only [keyLE, Bool.or_eq_true, Bool.and_eq_true, decide_eq_true_eq]
  omega

theorem dailyKeys_sorted (trips : List Trip) :
    (dailyKeys trips).Pairwise (fun a b => keyLE a b = true) :=
  List.sorted_mergeSort keyLE_trans keyLE_total _

theorem dailyAgg_rows_sorted (trips : List Trip) :
    (dailyAgg trips).Pairwise rowLT := by
  rw [dailyAgg]
  refine List.Pairwise.map (mkDailyRow trips) ?_
    ((dailyKeys_sorted trips).and (dailyKeys_nodup trips))
  intro a b hab
  rcases hab with ⟨hle, hne⟩
  show rowLT (mkDailyRow trips a) (mkDailyRow trips b)
  simp only [rowLT, mkDailyRow]
  simp only [keyLE, Bool.or_eq_true, Bool.and_eq_true, decide_eq_true_eq] at hle
  have hne2 : ¬(a.1 = b.1 ∧ a.2 = b.2) := by
    intro hc
    exact hne (Prod.ext_iff.mpr hc)
  omega

/-- C9: the pipeline is deterministic: identical raw inputs produce
identical DailySummary outputs, and the output rows are strictly ordered by
(date ascending, zone ascending). -/
theorem C9_determinism (rows1 rows2 : List RawRecord) (h : rows1 = rows2) :
    daily_zone_features rows1 = daily_zone_features rows2 ∧
    (daily_zone_features rows1).Pairwise rowLT :=
  ⟨by rw [h], dailyAgg_rows_sorted _⟩

/-- Witness for C9_determinism at the empty input. -/
theorem C9_determinism_witness :
    daily_zone_features [] = daily_zone_features [] ∧
    (daily_zone_features []).Pairwise rowLT :=
  C9_determinism [] [] rfl

end Taxis
